import Mathlib

/-!
Shallow embedding of the schema-translation core of the repository
(`src/utils.py`, `src/documentation.py`, `src/reference_resolver.py`,
`src/slot_builder.py`, `src/constraint_handler.py`, `src/identity_processor.py`).

Python dictionaries are modelled as insertion-ordered association lists
(`List (String × α)`), Python sets as lists used up to membership, Python
`None`/missing keys as `Option`.  Truthiness of a Python string (`if s:`)
is `s ≠ ""`.  All definitions are executable.
-/

namespace NBO

/-- `d.get(k)` on a Python dict modelled as an association list
(first matching key wins, as dict keys are unique). -/
def lookupD {α : Type} (l : List (String × α)) (k : String) : Option α :=
  (l.find? (fun p => p.1 = k)).map (·.2)

/-- Convert an `Option String` back to a Python-falsy-aware string
(`None` behaves like `""` in the loops that assign `current = base`). -/
def optStr : Option String → String
  | some s => s
  | Option.none => ""

/-- Keep a string option only when it is Python-truthy (non-`None`, non-empty). -/
def truthyStr : Option String → Option String
  | some s => if s = "" then Option.none else some s
  | Option.none => Option.none

/-! ### Python string primitives

The implementations below mirror Python `str` methods over `List Char`
(structural recursion, so concrete instances evaluate inside proofs). -/

/-- `c in s` for a single character. -/
def pyContains (s : String) (c : Char) : Bool := s.toList.contains c

def splitOnCharAux : List Char → Char → List Char → List (List Char)
  | [], _, cur => [cur.reverse]
  | c :: rest, sep, cur =>
    if c = sep then cur.reverse :: splitOnCharAux rest sep []
    else splitOnCharAux rest sep (c :: cur)

/-- Python `s.split(sep)` for a one-character separator (all separators used
by the source are one character). -/
def pySplit (s : String) (sep : Char) : List String :=
  (splitOnCharAux s.toList sep []).map String.mk

def splitOnPredAux (p : Char → Bool) : List Char → List Char → List (List Char)
  | [], cur => [cur.reverse]
  | c :: rest, cur =>
    if p c then cur.reverse :: splitOnPredAux p rest []
    else splitOnPredAux p rest (c :: cur)

/-- Python `s.split()`: split on whitespace runs, dropping empty pieces. -/
def pySplitWs (s : String) : List String :=
  ((splitOnPredAux Char.isWhitespace s.toList []).map String.mk).filter (· ≠ "")

def trimChars (l : List Char) : List Char :=
  ((l.dropWhile Char.isWhitespace).reverse.dropWhile Char.isWhitespace).reverse

/-- Python `s.strip()` (ASCII whitespace, which covers the schema texts). -/
def pyTrim (s : String) : String := String.mk (trimChars s.toList)

/-- Python `s.lower()`. -/
def pyToLower (s : String) : String := String.mk (s.toList.map Char.toLower)

def replaceAux (p : Char) (ps rep : List Char) : Nat → List Char → List Char
  | 0, l => l
  | _ + 1, [] => []
  | fuel + 1, c :: rest =>
    if (p :: ps).isPrefixOf (c :: rest) then
      rep ++ replaceAux p ps rep fuel (rest.drop ps.length)
    else c :: replaceAux p ps rep fuel rest

/-- Python `s.replace(old, new)` for non-empty `old` (left-to-right,
non-overlapping; the source never calls it with an empty pattern).  The fuel
equals the input length, which each step strictly consumes, so it never runs
out. -/
def pyReplace (s old new : String) : String :=
  match old.toList with
  | [] => s
  | p :: ps => String.mk (replaceAux p ps new.toList s.toList.length s.toList)

/-- Python `sep.join(parts)`. -/
def pyJoin (sep : String) : List String → String
  | [] => ""
  | [p] => p
  | p :: rest => p ++ sep ++ pyJoin sep rest

/-- Python `s.startswith(p)`. -/
def pyStartsWith (s p : String) : Bool := p.toList.isPrefixOf s.toList

/-- Python `s.endswith(p)`. -/
def pyEndsWith (s p : String) : Bool := p.toList.reverse.isPrefixOf s.toList.reverse

/-- Python `s[:-n]`. -/
def pyDropRight (s : String) (n : Nat) : String :=
  String.mk (s.toList.take (s.toList.length - n))

/-- Python `s[n:]`. -/
def pyDrop (s : String) (n : Nat) : String := String.mk (s.toList.drop n)

/-! ## utils.py -/

/-- `utils.local_name`: strip a `{namespace}` or `prefix:` qualifier from a name.
The `value is None` case is handled by callers passing `""` via `optStr`. -/
def local_name (text : String) : String :=
  if pyContains text '}' then (pySplit text '}').getLastD ""
  else if pyContains text ':' then (pySplit text ':').getLastD ""
  else text

/-- `utils.XSD_TO_LINKML_TYPE_MAP` as an association list. -/
def xsd_to_linkml_type_map : List (String × String) :=
  [("string", "string"), ("token", "string"), ("normalizedString", "string"),
   ("anyURI", "uri"), ("float", "float"), ("double", "float"), ("decimal", "float"),
   ("integer", "integer"), ("int", "integer"), ("long", "integer"), ("short", "integer"),
   ("byte", "integer"), ("nonNegativeInteger", "integer"), ("positiveInteger", "integer"),
   ("unsignedLong", "integer"), ("unsignedInt", "integer"), ("unsignedShort", "integer"),
   ("unsignedByte", "integer"), ("boolean", "boolean"), ("date", "date"),
   ("dateTime", "datetime"), ("time", "time"),
   ("ID", "string"), ("IDREF", "string"), ("IDREFS", "string")]

/-- `utils.PRIMITIVE_RANGES`. -/
def primitive_ranges : List String :=
  ["string", "integer", "float", "boolean", "date", "time", "datetime", "uri"]

/-- An XSD type object as read by the translation core: its (optional) name,
its enumeration facet values, the extracted pattern-facet regexp, numeric
bounds, and the restriction base type.  Two constructors (with and without a
`base_type`) keep the chain a finite tree — `xmlschema` base chains are
finite, and the code's `base_type is not xsd_type` self-loop guard is always
true on a tree. -/
inductive XsdType where
  | mk (name : Option String) (enumeration : List String) (pattern : Option String)
      (min_value max_value : Option Int) : XsdType
  | sub (name : Option String) (enumeration : List String) (pattern : Option String)
      (min_value max_value : Option Int) (base : XsdType) : XsdType
deriving DecidableEq

/-- `getattr(t, "name", None)`. -/
def XsdType.nameAttr : XsdType → Option String
  | .mk n _ _ _ _ => n
  | .sub n _ _ _ _ _ => n

/-- `getattr(t, "base_type", None)`. -/
def XsdType.baseType : XsdType → Option XsdType
  | .mk _ _ _ _ _ => Option.none
  | .sub _ _ _ _ _ b => some b

/-- `getattr(t, "enumeration", [])`. -/
def XsdType.enumerationAttr : XsdType → List String
  | .mk _ e _ _ _ => e
  | .sub _ e _ _ _ _ => e

/-- The pattern-facet regexp the code extracts from `facets` (collapsing the
`pattern`/`patterns[0]`/`regexps[0]` probing into one optional value). -/
def XsdType.patternAttr : XsdType → Option String
  | .mk _ _ p _ _ => p
  | .sub _ _ p _ _ _ => p

/-- `getattr(t, "min_value", None)`. -/
def XsdType.minValue : XsdType → Option Int
  | .mk _ _ _ mn _ => mn
  | .sub _ _ _ mn _ _ => mn

/-- `getattr(t, "max_value", None)`. -/
def XsdType.maxValue : XsdType → Option Int
  | .mk _ _ _ _ mx => mx
  | .sub _ _ _ _ mx _ => mx

/-- The argument of `utils.map_xsd_primitive`: `None`, a plain string, or an
XSD type object. -/
inductive XTypeArg where
  | non : XTypeArg
  | str (s : String) : XTypeArg
  | node (t : XsdType) : XTypeArg

/-- `utils.map_xsd_primitive` on a type object (the recursive part): use the
type's truthy name if it has one (returning `"string"` when its local name is
empty, the mapped primitive when known, and otherwise falling through to the
base type), else recurse into the base type; `"string"` when nothing maps. -/
def map_xsd_node : XsdType → String
  | .mk n _ _ _ _ =>
    match truthyStr n with
    | some nm =>
      let tn := local_name nm
      if tn = "" then "string"
      else (lookupD xsd_to_linkml_type_map tn).getD "string"
    | Option.none => "string"
  | .sub n _ _ _ _ b =>
    match truthyStr n with
    | some nm =>
      let tn := local_name nm
      if tn = "" then "string"
      else
        match lookupD xsd_to_linkml_type_map tn with
        | some v => v
        | Option.none => map_xsd_node b
    | Option.none => map_xsd_node b

/-- `utils.map_xsd_primitive`. -/
def map_xsd_primitive : XTypeArg → String
  | .non => "string"
  | .str s =>
    let tn := local_name s
    if tn = "" then "string"
    else
      match lookupD xsd_to_linkml_type_map tn with
      | some v => v
      | Option.none => "string"
  | .node t => map_xsd_node t

/-- `utils.sanitize_enum_name`: `re.sub(r"[^A-Za-z0-9_]+", "_", ...)` collapses
each maximal run of bad characters into one underscore. -/
def sanitizeAux : Bool → List Char → List Char
  | _, [] => []
  | inRun, c :: rest =>
    if c.isAlphanum ∨ c = '_' then c :: sanitizeAux false rest
    else if inRun then sanitizeAux true rest
    else '_' :: sanitizeAux true rest

def sanitizeChars (l : List Char) : List Char := sanitizeAux false l

/-- `utils.sanitize_enum_name`. -/
def sanitize_enum_name (class_name attr_name : String) : String :=
  String.mk (sanitizeChars ("Enum_" ++ class_name ++ "_" ++ attr_name).toList)

/-! ## documentation.py -/

/-- One annotation entry `{"tag": ..., "value": ...}`. -/
structure Annotation where
  tag : String
  value : String
deriving DecidableEq

/-- The documentation-facing view of a target class/slot dict: the
`description`, `in_subset` and `annotations` keys, which are the only keys the
documentation merger reads or writes. -/
structure DocTarget where
  description : Option String
  in_subset : List String
  annotations : List (String × Annotation)
deriving DecidableEq

/-- `documentation.TIER_SUBSET_LOOKUP`. -/
def tier_subset_lookup : List (String × String) :=
  [("1", "NBO_Tier1"), ("2", "NBO_Tier2"), ("3", "NBO_Tier3")]

/-- `metadata[key].append(value)` on a `defaultdict(list)`. -/
def mdAppend (md : List (String × List String)) (k v : String) :
    List (String × List String) :=
  if (lookupD md k).isSome then
    md.map (fun e => if e.1 = k then (e.1, e.2 ++ [v]) else e)
  else md ++ [(k, [v])]

/-- `annotations[key] = value` on a Python dict: replace in place if the key
exists (keeping its position), else append. -/
def dictInsert (l : List (String × Annotation)) (k : String) (v : Annotation) :
    List (String × Annotation) :=
  if (lookupD l k).isSome then l.map (fun e => if e.1 = k then (e.1, v) else e)
  else l ++ [(k, v)]

/-- `documentation.split_doc_metadata`: split documentation text into
narrative description lines and `key = value` metadata.  `str.splitlines` is
modelled as splitting on `"\n"` (blank artifacts are dropped by the
empty-line check, as in the source). -/
def split_doc_metadata (doc_text : String) : String × List (String × List String) :=
  let step := fun (acc : List String × List (String × List String)) (raw_line : String) =>
    let line := pyTrim raw_line
    if line = "" then acc
    else if pyContains line '=' then
      let parts := pySplit line '='
      let key := pyTrim (parts.headD "")
      let value := pyTrim (pyJoin "=" parts.tail)
      if key = "" then (acc.1 ++ [line], acc.2)
      else if pyToLower key = "description" then (acc.1 ++ [value], acc.2)
      else (acc.1, mdAppend acc.2 key value)
    else (acc.1 ++ [line], acc.2)
  let r := (pySplit doc_text '\n').foldl step ([], [])
  (pyTrim (pyJoin "\n" r.1), r.2)

/-- Lines 65-75 of `documentation.apply_metadata_to_target`: the annotation
recording loop.  A first occurrence (`idx == 0`) of a key whose underscored
base is not yet an annotation name is stored under the base itself; every
other occurrence is stored under `f"{base}_{idx}"` with no freshness check. -/
def recordAnnotations (annotations : List (String × Annotation))
    (md : List (String × List String)) : List (String × Annotation) :=
  md.foldl (fun anns e =>
    if e.2 = [] then anns
    else
      let ann_base := pyReplace e.1 " " "_"
      e.2.enum.foldl (fun anns p =>
        let ann_key :=
          if p.1 = 0 ∧ (lookupD anns ann_base).isNone then ann_base
          else ann_base ++ "_" ++ toString p.1
        dictInsert anns ann_key ⟨e.1, p.2⟩) anns) annotations

/-- `documentation.apply_metadata_to_target`: pop `tier` keys into the subset
list, then record the remaining metadata as annotations. -/
def apply_metadata_to_target (t : DocTarget) (md : List (String × List String)) :
    DocTarget :=
  if md = [] then t
  else
    let tier_values := ((md.filter (fun e => pyToLower e.1 = "tier")).map (·.2)).flatten
    let md := md.filter (fun e => ¬ pyToLower e.1 = "tier")
    let t :=
      if tier_values = [] then t
      else
        { t with in_subset := tier_values.foldl (fun sl raw =>
            if raw = "" then sl
            else (pySplitWs (pyReplace raw "," " ")).foldl
              (fun sl token =>
                match lookupD tier_subset_lookup (pyTrim token) with
                | some subset => if subset ∈ sl then sl else sl ++ [subset]
                | Option.none => sl) sl) t.in_subset }
    if md = [] then t
    else { t with annotations := recordAnnotations t.annotations md }

/-- A vendor-extension (`appinfo`) XML node: tag, text, children. -/
inductive AppNode where
  | mk (tag : String) (text : Option String) (children : List AppNode)

def AppNode.tagOf : AppNode → String
  | .mk tg _ _ => tg

def AppNode.textOf : AppNode → Option String
  | .mk _ tx _ => tx

def AppNode.childrenOf : AppNode → List AppNode
  | .mk _ _ ch => ch

/-- `documentation.record_appinfo_entry`: record one appinfo node as an
annotation, suffixing the current annotation count on a name collision. -/
def record_appinfo_entry (t : DocTarget) (node : AppNode) : DocTarget :=
  let name := local_name node.tagOf
  let stripped := pyTrim (optStr node.textOf)
  let value := if stripped = "" then "true" else stripped
  let key :=
    if (lookupD t.annotations name).isNone then name
    else name ++ "_" ++ toString t.annotations.length
  { t with annotations := dictInsert t.annotations key ⟨name, value⟩ }

/-- `documentation.apply_appinfo_metadata`, given the appinfo child nodes the
`.//{*}appinfo` scan yields: a reserved `xsdfu` wrapper's children are
recorded individually, every other node is recorded directly. -/
def apply_appinfo_metadata (t : DocTarget) (nodes : List AppNode) : DocTarget :=
  nodes.foldl (fun t node =>
    if pyToLower (local_name node.tagOf) = "xsdfu" then
      node.childrenOf.foldl record_appinfo_entry t
    else record_appinfo_entry t node) t

/-- `documentation.apply_doc_metadata` (with `coerce_description` on string
input, i.e. `str.strip`). -/
def apply_doc_metadata (t : DocTarget) (doc_value : Option String) : DocTarget :=
  match doc_value with
  | Option.none => t
  | some dv =>
    if dv = "" then t
    else
      let clean_text := pyTrim dv
      if clean_text = "" then t
      else
        let r := split_doc_metadata clean_text
        let t := if r.1 ≠ "" then { t with description := some r.1 } else t
        apply_metadata_to_target t r.2

/-! ## reference_resolver.py -/

/-- The state `ReferenceResolver` reads: the target model's classes viewed
through the only field the resolver consults (`is_a`, `Option.none` covering a
missing key or an empty/falsy class definition), the auxiliary
`inheritance_map`, and `known_class_names`. -/
structure RState where
  classes : List (String × Option String)
  inherit : List (String × String)
  known : List String

/-- The `base` computation shared by every ancestor walk (lines 26-32, 47-56,
82-87 of `reference_resolver.py`): prefer a truthy `is_a`, else fall back to
the inheritance map. -/
def baseOf (st : RState) (current : String) : Option String :=
  match truthyStr ((lookupD st.classes current).getD Option.none) with
  | some b => some b
  | Option.none => lookupD st.inherit current

/-- Fuel that provably dominates any visited-set-bounded ancestor walk: each
loop iteration adds a fresh name to the visited set, and every name the walk
can reach beyond the start is an `is_a` or inheritance-map value, so the walk
performs at most `classes.length + inherit.length + 1` iterations. -/
def walkFuel (st : RState) : Nat := st.classes.length + st.inherit.length + 1

/-- The self-to-root ancestor chain of lines 76-88 of
`ReferenceResolver.select_keyref_range` (`while current and current not in
visited`). -/
def ancestorChainAux (st : RState) : Nat → String → List String → List String
  | 0, _, _ => []
  | fuel + 1, current, visited =>
    if current = "" ∨ current ∈ visited then []
    else current :: ancestorChainAux st fuel (optStr (baseOf st current)) (current :: visited)

def ancestorChain (st : RState) (cls_name : String) : List String :=
  ancestorChainAux st (walkFuel st) cls_name []

/-- `ReferenceResolver.class_is_ref_like` loop: the name (or any ancestor's
name) ends in `"Ref"` or equals `"Reference"`. -/
def classIsRefLikeAux (st : RState) : Nat → String → List String → Bool
  | 0, _, _ => false
  | fuel + 1, current, visited =>
    if current = "" then false
    else if pyEndsWith current "Ref" ∨ current = "Reference" then true
    else if current ∈ visited then false
    else classIsRefLikeAux st fuel (optStr (baseOf st current)) (current :: visited)

/-- `ReferenceResolver.class_is_ref_like` (a `None` class name is passed
as `""`, both being Python-falsy). -/
def class_is_ref_like (st : RState) (class_name : String) : Bool :=
  if class_name = "" then false
  else classIsRefLikeAux st (walkFuel st) class_name []

/-- The inheritance walk of `ReferenceResolver.reference_target_for_class`
(lines 41-57): an ancestor whose truthy `is_a` carries the `"Ref"` suffix and
strips to a known class resolves the target. -/
def referenceTargetAux (st : RState) : Nat → String → List String → Option String
  | 0, _, _ => Option.none
  | fuel + 1, current, visited =>
    if current = "" then Option.none
    else if current ∈ visited then Option.none
    else
      match truthyStr ((lookupD st.classes current).getD Option.none) with
      | some b =>
        if pyEndsWith b "Ref" ∧ pyDropRight b 3 ∈ st.known then some (pyDropRight b 3)
        else referenceTargetAux st fuel b (current :: visited)
      | Option.none =>
        referenceTargetAux st fuel (optStr (lookupD st.inherit current)) (current :: visited)

/-- `ReferenceResolver.reference_target_for_class`. -/
def reference_target_for_class (st : RState) (owner_class type_name_local : String) :
    Option String :=
  if owner_class ≠ "" ∧ pyEndsWith owner_class "Ref" ∧ pyDropRight owner_class 3 ∈ st.known then
    some (pyDropRight owner_class 3)
  else
    match referenceTargetAux st (walkFuel st) owner_class [] with
    | some c => some c
    | Option.none =>
      if type_name_local ≠ "" ∧ pyEndsWith type_name_local "ID" ∧
          pyDropRight type_name_local 2 ∈ st.known then
        some (pyDropRight type_name_local 2)
      else Option.none

/-- `ReferenceResolver.select_keyref_range`.  The Python `set` argument is
modelled as a list in iteration order (`next(iter(...))` is its head). -/
def select_keyref_range (st : RState) (target_classes : List String) : Option String :=
  if target_classes = [] then Option.none
  else if target_classes.length = 1 then target_classes.head?
  else
    let ancestor_lists :=
      (((target_classes.filter (fun c => c ≠ "")).map (ancestorChain st)).filter (· ≠ []))
    match ancestor_lists with
    | [] => Option.none
    | c0 :: rest =>
      let common := rest.foldl (fun acc chain => acc.filter (· ∈ chain)) c0
      match c0.find? (fun a => a ∈ common) with
      | some a => some a
      | Option.none => Option.none

/-- Modelled from the spec: `select_keyref_range` on two or more candidates
computes each candidate's self-to-root ancestor chain and "return[s] the
nearest common ancestor — the first class, in the first candidate's own chain
order (closest to itself first), that appears in the intersection", none if
the intersection is empty. -/
def select_keyref_range_nca (st : RState) (target_classes : List String) : Option String :=
  match ((target_classes.filter (fun c => c ≠ "")).map (ancestorChain st)).filter (· ≠ []) with
  | [] => Option.none
  | c0 :: rest => c0.find? (fun a => rest.all (fun chain => decide (a ∈ chain)))

/-! ## slot_builder.py -/

/-- A source attribute declaration as read by `SlotBuilder.slot_from_attribute`:
its (optional) type object, its `use`, and its annotation rendered as the
documentation text `get_documentation` extracts plus the appinfo nodes
`apply_appinfo_metadata` walks (XML parsing itself is an external collaborator). -/
structure AttrObj where
  typeAttr : Option XsdType
  useAttr : Option String
  docText : Option String
  appinfo : List AppNode

/-- The slot dict `slot_from_attribute` builds: its `range` plus the
documentation-facing keys and the facet/flag keys (`Option.none` = key absent). -/
structure Slot where
  range : String
  doc : DocTarget
  pattern : Option String
  minimum_value : Option Int
  maximum_value : Option Int
  required : Option Bool
  identifier : Option Bool
deriving DecidableEq

/-- `local_name(getattr(attr_type, "name", None))` as computed on line 29 of
`slot_builder.py`. -/
def attrTypeNameLocal (attr : AttrObj) : String :=
  local_name (optStr (attr.typeAttr.bind XsdType.nameAttr))

/-- `SlotBuilder.slot_from_attribute`.  The `if target_candidate:` guard on
line 34 keeps the primitive range when the resolved target is falsy
(`truthyStr`).  `ensure_enum_for_slot` registers the enumeration in the
schema's `enums` map as a side effect; its effect on the returned slot is the
sanitized enum name used as `range`.  `overrides` is the
`attr_description_overrides` table. -/
def slot_from_attribute (st : RState)
    (overrides : List (String × List (String × String)))
    (owner_class attr_name : String) (attr : AttrObj) : Slot :=
  let attr_type := attr.typeAttr
  let range0 := map_xsd_primitive (match attr_type with
    | some t => .node t
    | Option.none => .non)
  let type_name_local := attrTypeNameLocal attr
  let attr_name_lower := pyToLower attr_name
  let range1 :=
    if attr_name_lower = "id" ∧ class_is_ref_like st owner_class then
      match truthyStr (reference_target_for_class st owner_class type_name_local) with
      | some target_candidate => target_candidate
      | Option.none => range0
    else range0
  let custom_doc := (lookupD ((lookupD overrides owner_class).getD []) attr_name)
  let doc1 := apply_doc_metadata ⟨Option.none, [], []⟩ attr.docText
  let doc2 :=
    match truthyStr custom_doc with
    | some cd => { doc1 with description := some cd }
    | Option.none => doc1
  let doc3 := apply_appinfo_metadata doc2 attr.appinfo
  let enum_values := (attr_type.map XsdType.enumerationAttr).getD []
  let range2 := if enum_values ≠ [] then sanitize_enum_name owner_class attr_name else range1
  let pattern_value := truthyStr ((attr_type.map XsdType.patternAttr).getD Option.none)
  let min_inclusive := (attr_type.map XsdType.minValue).getD Option.none
  let max_inclusive := (attr_type.map XsdType.maxValue).getD Option.none
  let required := if attr.useAttr = some "required" then some true else Option.none
  let identifier :=
    if attr_name_lower = "id" ∨ (type_name_local ≠ "" ∧ pyEndsWith type_name_local "ID") then
      some true
    else Option.none
  { range := range2, doc := doc3, pattern := pattern_value,
    minimum_value := min_inclusive, maximum_value := max_inclusive,
    required := required, identifier := identifier }

/-! ## constraint_handler.py -/

/-- One `exactly_one_of` sub-expression built on lines 91-95:
`{"slot_conditions": {slot: {"required": req}}}` (the code always builds
`req = true`; dict equality for the dedup check reduces to equality of these
two fields). -/
structure ChoiceExpr where
  slot : String
  req : Bool
deriving DecidableEq

/-- A slot entry of a class's `attributes` dict, split into the two flags the
relaxation pass touches and an opaque remainder standing for every other key. -/
structure CHSlot where
  required : Option Bool
  multivalued : Option Bool
  rest : List (String × String)
deriving DecidableEq

/-- A class entry of `linkml_schema["classes"]`: its `attributes` dict, its
`exactly_one_of` list (`Option.none` = key absent), and an opaque remainder
standing for every other key. -/
structure CHClass where
  attributes : List (String × CHSlot)
  exactly_one_of : Option (List ChoiceExpr)
  rest : List (String × String)
deriving DecidableEq

def emptyCHClass : CHClass := ⟨[], Option.none, []⟩

/-- `ChoiceConstraintHandler`'s state: the shared target model's classes and
the two membership maps (`defaultdict(set)`, sets in insertion order). -/
structure CHState where
  classes : List (String × CHClass)
  choice_slot_membership : List (String × List String)
  choice_repeat_membership : List (String × List String)
deriving DecidableEq

/-- `max_occurs` as probed by `getattr(group, "max_occurs", None)`. -/
inductive MaxO where
  | unbounded : MaxO
  | int (n : Nat) : MaxO
  | absent : MaxO
deriving DecidableEq

/-- The `max_occurs`/`occurs` pair of a group; an `occurs` tuple entry of
`Option.none` is Python `None` (the unbounded marker). -/
structure GroupOcc where
  max_occurs : MaxO
  occurs : Option (List (Option Nat))
deriving DecidableEq

/-- `ChoiceConstraintHandler.choice_is_repeating`. -/
def choice_is_repeating (g : GroupOcc) : Bool :=
  match g.max_occurs with
  | .unbounded => true
  | .int n => decide (n > 1)
  | .absent =>
    match g.occurs with
    | some tup => tup ≠ [] ∧ tup.getLastD (some 0) = Option.none
    | Option.none => false

/-- A content-model node as walked by the branch collector: an element (with
optional own name, optional `ref` target name, and `min_occurs`) or a group. -/
inductive XsdNode where
  | element (name : Option String) (refName : Option String) (min_occurs : Nat) : XsdNode
  | group (model : String) (occ : GroupOcc) (children : List XsdNode) : XsdNode

mutual

/-- `ChoiceConstraintHandler.collect_branch_slots`: flatten one branch into
`(slot_name, required)` pairs (`local_name` of the element's name or its
`ref`'s name; `required = bool(min_occurs)`). -/
def collect_branch_slots : XsdNode → List (String × Bool)
  | .element name refName min_occurs =>
    let slot_name := local_name (optStr (truthyStr name <|> refName))
    if slot_name ≠ "" then [(slot_name, decide (min_occurs ≠ 0))] else []
  | .group _ _ children => collectChildrenSlots children

def collectChildrenSlots : List XsdNode → List (String × Bool)
  | [] => []
  | c :: rest => collect_branch_slots c ++ collectChildrenSlots rest

end

mutual

/-- The per-item dispatch of `ChoiceConstraintHandler.extract_choice_branches`:
a nested choice contributes its own (already filtered) branches, any other
item contributes one branch of its collected slots. -/
def extractItem : XsdNode → List (List (String × Bool))
  | .group model occ sub =>
    if model = "choice" then (extractItems sub).filter (· ≠ [])
    else [collect_branch_slots (.group model occ sub)]
  | .element nm rf mo => [collect_branch_slots (.element nm rf mo)]

def extractItems : List XsdNode → List (List (String × Bool))
  | [] => []
  | item :: rest => extractItem item ++ extractItems rest

end

/-- `ChoiceConstraintHandler.extract_choice_branches`: one branch per direct
item of the choice (nested choices flattened), empty branches dropped. -/
def extract_choice_branches (children : List XsdNode) : List (List (String × Bool)) :=
  (extractItems children).filter (· ≠ [])

/-- `set.update(...)` insertion-order union. -/
def setUnion (a b : List String) : List String :=
  a ++ (b.filter (· ∉ a)).dedup

/-- `self.choice_slot_membership[class_name].update(universe)` on a
`defaultdict(set)`: the access alone materialises the entry. -/
def memUpdate (m : List (String × List String)) (c : String) (names : List String) :
    List (String × List String) :=
  if (lookupD m c).isSome then
    m.map (fun e => if e.1 = c then (e.1, setUnion e.2 names) else e)
  else m ++ [(c, setUnion [] names)]

/-- All slot names recorded for class `c` across a membership map (for a
Python dict, whose keys are unique, this is exactly the entry's set). -/
def memAll (m : List (String × List String)) (c : String) : List String :=
  ((m.filter (fun e => e.1 = c)).map (·.2)).flatten

/-- `ChoiceConstraintHandler.apply_choice_constraint`.  Both the
single-slot-branch path and the fallback path update the membership maps the
same way; they differ only in whether an `exactly_one_of` constraint is
recorded on the class. -/
def apply_choice_constraint (st : CHState) (class_name : String)
    (branches : List (List (String × Bool))) (repeating : Bool) : CHState :=
  if branches.length < 2 then st
  else
    let classes₀ :=
      if (lookupD st.classes class_name).isSome then st.classes
      else st.classes ++ [(class_name, emptyCHClass)]
    let cls := (lookupD classes₀ class_name).getD emptyCHClass
    let slot_sets := branches.map (fun branch => (branch.map Prod.fst).dedup)
    let univSlots := slot_sets.flatten
    let classes₁ :=
      if slot_sets.all (fun slot_set => slot_set.length = 1) then
        let group := slot_sets.foldl (fun g slot_set =>
          let slot_name := slot_set.headD ""
          if slot_name ∈ g then g else g ++ [slot_name]) []
        let existing := cls.exactly_one_of.getD []
        let existing₁ := group.foldl (fun ex slot_name =>
          let expr : ChoiceExpr := ⟨slot_name, true⟩
          if expr ∈ ex then ex else ex ++ [expr]) existing
        classes₀.map (fun e =>
          if e.1 = class_name then (e.1, { e.2 with exactly_one_of := some existing₁ }) else e)
      else classes₀
    { classes := classes₁,
      choice_slot_membership := memUpdate st.choice_slot_membership class_name univSlots,
      choice_repeat_membership :=
        if repeating then memUpdate st.choice_repeat_membership class_name univSlots
        else st.choice_repeat_membership }

/-- `slot.pop("required", None)` for one slot name across an attributes dict. -/
def popRequired (attrs : List (String × CHSlot)) (s : String) : List (String × CHSlot) :=
  attrs.map (fun e => if e.1 = s then (e.1, { e.2 with required := Option.none }) else e)

/-- `slot["multivalued"] = True` for one slot name across an attributes dict. -/
def setMultivalued (attrs : List (String × CHSlot)) (s : String) : List (String × CHSlot) :=
  attrs.map (fun e => if e.1 = s then (e.1, { e.2 with multivalued := some true }) else e)

/-- One iteration of the first relaxation loop (the code's skip of a missing
or falsy-empty class is a no-op here, because updating an absent key changes
nothing and an empty class has no attributes to pop). -/
def relaxEntryRequired (classes : List (String × CHClass)) (e : String × List String) :
    List (String × CHClass) :=
  classes.map (fun p =>
    if p.1 = e.1 then (p.1, { p.2 with attributes := e.2.foldl popRequired p.2.attributes })
    else p)

/-- One iteration of the second relaxation loop. -/
def relaxEntryMultivalued (classes : List (String × CHClass)) (e : String × List String) :
    List (String × CHClass) :=
  classes.map (fun p =>
    if p.1 = e.1 then (p.1, { p.2 with attributes := e.2.foldl setMultivalued p.2.attributes })
    else p)

/-- `ChoiceConstraintHandler.relax_choice_constraints`: pop `required` for
every recorded choice member, then force `multivalued` for every recorded
repeating-choice member. -/
def relax_choice_constraints (st : CHState) : CHState :=
  let classes₁ := st.choice_slot_membership.foldl relaxEntryRequired st.classes
  let classes₂ := st.choice_repeat_membership.foldl relaxEntryMultivalued classes₁
  { st with classes := classes₂ }

/-! ## identity_processor.py -/

/-- The object a Keyref's `refer` attribute holds: its (optional) `name` and
its `str()` rendering, which `local_name` falls back to when the name is
falsy. -/
structure Refer where
  name : Option String
  repr : String

/-- A schema-global identity constraint as dispatched by
`IdentityProcessor.process_identities`: `XsdKey`, `XsdUnique` or `XsdKeyref`,
each carrying its selector path (`Option.none` = no selector object) and its
field paths (each `getattr(field, "path", "") or ""`). -/
inductive Ident where
  | keyI (selector : Option String) (fields : List String) : Ident
  | uniqueI (selector : Option String) (fields : List String) : Ident
  | keyrefI (refer : Option Refer) (selector : Option String) (fields : List String) : Ident

/-- The target-model mutations `process_identities` requests through its
callbacks.  An `addAttribute` effect's slot definition is fully determined by
its range: `{"range": r, "annotations": {f"references_{r}": {"tag":
"references", "value": r}}}`. -/
inductive Effect where
  | addUniqueKey (target_class key_local_name : String) (slot_names : List String) : Effect
  | addAttribute (source_class slot_name range : String) : Effect
deriving DecidableEq

/-- `key_target_map.setdefault(name, set()).add(target)`. -/
def kmAdd (km : List (String × List String)) (k target : String) : List (String × List String) :=
  if (lookupD km k).isSome then
    km.map (fun e => if e.1 = k then (e.1, if target ∈ e.2 then e.2 else e.2 ++ [target]) else e)
  else km ++ [(k, [target])]

/-- The slot-name extraction shared by the Key/Unique and Keyref branches
(lines 57-67 and 106-113): last path segment, `@` stripped, `local_name`,
empty results dropped. -/
def fieldSlotNames (fields : List String) : List String :=
  fields.filterMap (fun field_path =>
    if field_path = "" then Option.none
    else
      let field_segment := (pySplit field_path '/').getLastD ""
      let field_segment :=
        if pyStartsWith field_segment "@" then pyDrop field_segment 1 else field_segment
      let slot_name := local_name field_segment
      if slot_name = "" then Option.none else some slot_name)

/-- The selector-path segmentation shared by both branches:
`path.replace("//", "/").split("/")` keeping only non-empty, non-`"."`
segments. -/
def selectorSegments (path : String) : List String :=
  (pySplit (pyReplace path "//" "/") '/').filter (fun seg => seg ≠ "" && seg ≠ ".")

/-- One iteration of the `process_identities` dispatch loop: fold state is the
`key_target_map`; requested mutations are returned as effects. -/
def processIdent (st : RState) (km : List (String × List String)) (ident_name : String) :
    Ident → List (String × List String) × List Effect
  | .keyI selector fields | .uniqueI selector fields =>
    match selector with
    | Option.none => (km, [])
    | some selector_path =>
      let selector_paths :=
        if selector_path ≠ "" then (pySplit selector_path '|').map pyTrim
        else [selector_path]
      let slot_names := fieldSlotNames fields
      if slot_names = [] then (km, [])
      else
        let key_local_name := local_name ident_name
        selector_paths.foldl (fun acc path =>
          let path := pyTrim path
          if path = "" then acc
          else
            let segments := selectorSegments path
            if segments = [] then acc
            else
              let target_segment := segments.getLastD ""
              if target_segment = "*" ∨ target_segment = "." then acc
              else
                let target_class := local_name target_segment
                if target_class = "" then acc
                else
                  (kmAdd acc.1 key_local_name target_class,
                   acc.2 ++ [.addUniqueKey target_class key_local_name slot_names]))
          (km, [])
  | .keyrefI refer selector fields =>
    match refer with
    | Option.none => (km, [])
    | some r =>
      let refer_key :=
        match truthyStr r.name with
        | some n => local_name n
        | Option.none => local_name r.repr
      let target_classes := (lookupD km refer_key).getD []
      let selector_path := selector.getD ""
      let segments := selectorSegments selector_path
      if segments = [] then (km, [])
      else
        let source_segment := segments.getLastD ""
        if source_segment = "*" ∨ source_segment = "." then (km, [])
        else
          let source_class := local_name source_segment
          let range_target := select_keyref_range st target_classes
          let effects := fields.filterMap (fun field_path =>
            if field_path = "" then Option.none
            else
              let field_segment := (pySplit field_path '/').getLastD ""
              let field_segment :=
                if pyStartsWith field_segment "@" then pyDrop field_segment 1
                else field_segment
              let slot_name := local_name field_segment
              if slot_name = "" then Option.none
              else
                match range_target with
                | Option.none => Option.none
                | some rt => some (Effect.addAttribute source_class slot_name rt))
          (km, effects)

/-- The fold step of `process_identities` over `identities.items()`. -/
def piStep (st : RState) (acc : List (String × List String) × List Effect)
    (p : String × Ident) : List (String × List String) × List Effect :=
  let r := processIdent st acc.1 p.1 p.2
  (r.1, acc.2 ++ r.2)

/-- `IdentityProcessor.process_identities`, returning the requested
target-model mutations in order.  The embedding is a total function: no
execution path raises. -/
def process_identities (st : RState) (identities : List (String × Ident)) : List Effect :=
  (identities.foldl (piStep st) ([], [])).2

/-- The `key_target_map` accumulated after a prefix of the identity list. -/
def kmAfter (st : RState) (identities : List (String × Ident)) : List (String × List String) :=
  (identities.foldl (piStep st) ([], [])).1

/-! ## Spec-side characterizations and demo fixtures -/

/-- The truthy local names along a type's restriction-base chain, in the order
`map_xsd_primitive` visits them (the walk stops early at a truthy name whose
local name is empty, where the code returns `"string"` without consulting the
base). -/
def chainNamesNode : XsdType → List String
  | .mk n _ _ _ _ =>
    match truthyStr n with
    | some nm => let tn := local_name nm; if tn = "" then [] else [tn]
    | Option.none => []
  | .sub n _ _ _ _ b =>
    match truthyStr n with
    | some nm => let tn := local_name nm; if tn = "" then [] else tn :: chainNamesNode b
    | Option.none => chainNamesNode b

def chainNames : XTypeArg → List String
  | .non => []
  | .str s => if local_name s = "" then [] else [local_name s]
  | .node t => chainNamesNode t

/-- The lookup-table image of the first chain name that the fixed
XSD-to-target table maps. -/
def firstMapped (names : List String) : Option String :=
  (names.find? (fun n => (lookupD xsd_to_linkml_type_map n).isSome)).bind
    (lookupD xsd_to_linkml_type_map)

/-- The spec's `select_keyref_range` example fixture: classes `Base`,
`DerivedA(is_a=Base)`, `DerivedB(is_a=Base)`. -/
def rsDemo : RState :=
  ⟨[("Base", Option.none), ("DerivedA", some "Base"), ("DerivedB", some "Base")], [], []⟩

/-- Pointwise effect of the relaxation pass on one slot, given the recorded
choice members and repeating-choice members of its owning class. -/
def relaxSlotFun (slotNames repNames : List String) (s : String) (v : CHSlot) : CHSlot :=
  ⟨if s ∈ slotNames then Option.none else v.required,
   if s ∈ repNames then some true else v.multivalued,
   v.rest⟩

/-- Pointwise effect of the relaxation pass on one class. -/
def relaxClassFun (slotMem repMem : List (String × List String)) (k : String)
    (v : CHClass) : CHClass :=
  ⟨v.attributes.map (fun q => (q.1, relaxSlotFun (memAll slotMem k) (memAll repMem k) q.1 q.2)),
   v.exactly_one_of, v.rest⟩

/-- A reference-suffix fixture: class `ImageRef` with `Image` known. -/
def rsImageRef : RState := ⟨[("ImageRef", Option.none)], [], ["Image"]⟩

/-- A choice-handling fixture: one class `Sample` whose slots `A`, `B`, `C`,
`X` carry an independently-set `required` flag. -/
def chDemo : CHState :=
  ⟨[("Sample", ⟨[("A", ⟨some true, Option.none, []⟩), ("B", ⟨some true, Option.none, []⟩),
     ("C", ⟨some true, Option.none, []⟩), ("X", ⟨some true, Option.none, []⟩),
     ("Y", ⟨Option.none, Option.none, []⟩)], Option.none, []⟩)], [], []⟩

/-! ## Generic association-list lemmas -/

theorem lookupD_mem {α : Type} {l : List (String × α)} {k : String} {v : α}
    (h : lookupD l k = some v) : v ∈ l.map (·.2) := by
  induction l with
  | nil => simp [lookupD] at h
  | cons e rest ih =>
    simp only [lookupD, List.find?] at h
    by_cases he : e.1 = k
    · simp [he] at h
      simp [← h]
    · simp only [List.map_cons, List.mem_cons]
      right
      apply ih
      simp only [lookupD]
      simpa [he] using h

theorem lookupD_append {α : Type} (l1 l2 : List (String × α)) (k : String) :
    lookupD (l1 ++ l2) k =
      match lookupD l1 k with
      | some v => some v
      | Option.none => lookupD l2 k := by
  induction l1 with
  | nil => simp [lookupD]
  | cons e rest ih =>
    by_cases h : e.1 = k
    · simp [lookupD, List.find?, h]
    · simp only [List.cons_append]
      simp [lookupD, List.find?, h]
      simpa [lookupD] using ih

theorem lookupD_map_keyed {α β : Type} (l : List (String × α)) (k : String)
    (f : String → α → β) :
    lookupD (l.map (fun p => (p.1, f p.1 p.2))) k = (lookupD l k).map (f k) := by
  induction l with
  | nil => simp [lookupD]
  | cons e rest ih =>
    by_cases h : e.1 = k
    · subst h; simp [lookupD, List.find?]
    · simp only [List.map_cons]
      simp [lookupD, List.find?, h] at ih ⊢
      exact ih

theorem lookupD_map_update {α : Type} (l : List (String × α)) (k : String) (g : α → α) :
    lookupD (l.map (fun e => if e.1 = k then (e.1, g e.2) else e)) k =
      (lookupD l k).map g := by
  induction l with
  | nil => simp [lookupD]
  | cons e rest ih =>
    by_cases h : e.1 = k
    · simp [lookupD, List.find?, h]
    · simp only [List.map_cons, if_neg h]
      simp [lookupD, List.find?, h]
      simpa [lookupD] using ih

/-! ## map_xsd_primitive lemmas -/

theorem firstMapped_mem {l : List String} {v : String}
    (h : firstMapped l = some v) : v ∈ primitive_ranges := by
  unfold firstMapped at h
  cases hf : l.find? (fun n => (lookupD xsd_to_linkml_type_map n).isSome) with
  | none => simp [hf] at h
  | some n =>
    simp only [hf, Option.bind_some] at h
    have hv := lookupD_mem h
    have hsub : ∀ x ∈ List.map (fun p => p.2) xsd_to_linkml_type_map,
        x ∈ primitive_ranges := by decide
    exact hsub v hv

theorem map_xsd_node_spec (t : XsdType) :
    map_xsd_node t = (firstMapped (chainNamesNode t)).getD "string" := by
  induction t with
  | mk n e p mn mx =>
    cases hn : truthyStr n with
    | none => simp [map_xsd_node, chainNamesNode, hn, firstMapped]
    | some nm =>
      by_cases h : local_name nm = ""
      · simp [map_xsd_node, chainNamesNode, hn, h, firstMapped]
      · simp only [map_xsd_node, chainNamesNode, hn, h, if_neg]
        cases hl : lookupD xsd_to_linkml_type_map (local_name nm) with
        | none => simp [h, hl, firstMapped, List.find?]
        | some v => simp [h, hl, firstMapped, List.find?]
  | sub n e p mn mx b ih =>
    cases hn : truthyStr n with
    | none => simp [map_xsd_node, chainNamesNode, hn, ih]
    | some nm =>
      by_cases h : local_name nm = ""
      · simp [map_xsd_node, chainNamesNode, hn, h, firstMapped]
      · simp only [map_xsd_node, chainNamesNode, hn, h, if_neg]
        cases hl : lookupD xsd_to_linkml_type_map (local_name nm) with
        | none => simp [h, hl, firstMapped, List.find?, ih]
        | some v => simp [h, hl, firstMapped, List.find?]

/-! ## select_keyref_range lemmas -/

theorem mem_foldl_filter (rest : List (List String)) (acc : List String) (a : String) :
    a ∈ rest.foldl (fun acc chain => acc.filter (· ∈ chain)) acc ↔
      a ∈ acc ∧ ∀ ch ∈ rest, a ∈ ch := by
  induction rest generalizing acc with
  | nil => simp
  | cons ch rest ih =>
    simp only [List.foldl_cons, ih, List.mem_filter, List.mem_cons]
    constructor
    · rintro ⟨⟨h1, h2⟩, h3⟩
      exact ⟨h1, fun c hc => by
        rcases hc with rfl | hc
        · simpa using h2
        · exact h3 c hc⟩
    · rintro ⟨h1, h2⟩
      exact ⟨⟨h1, by simpa using h2 ch (Or.inl rfl)⟩, fun c hc => h2 c (Or.inr hc)⟩

theorem find?_congr_mem {l : List String} {p q : String → Bool}
    (h : ∀ a ∈ l, p a = q a) : l.find? p = l.find? q := by
  induction l with
  | nil => simp
  | cons x rest ih =>
    simp only [List.find?]
    rw [h x (by simp)]
    cases hq : q x with
    | true => rfl
    | false => exact ih (fun a ha => h a (by simp [ha]))

theorem select_keyref_range_eq_nca (st : RState) (tc : List String)
    (h : 2 ≤ tc.length) :
    select_keyref_range st tc = select_keyref_range_nca st tc := by
  have h0 : ¬ tc = [] := by intro he; subst he; simp at h
  have h1 : ¬ tc.length = 1 := by omega
  unfold select_keyref_range select_keyref_range_nca
  simp only [h0, h1, if_false, ite_false]
  cases hcl : ((tc.filter (fun c => c ≠ "")).map (ancestorChain st)).filter (· ≠ []) with
  | nil => simp
  | cons c0 rest =>
    simp only []
    have hpred : c0.find? (fun a =>
        decide (a ∈ rest.foldl (fun acc chain => acc.filter (· ∈ chain)) c0)) =
        c0.find? (fun a => rest.all (fun chain => decide (a ∈ chain))) := by
      apply find?_congr_mem
      intro a ha
      by_cases hm : ∀ ch ∈ rest, a ∈ ch
      · have hl : decide (a ∈ rest.foldl (fun acc chain => acc.filter (· ∈ chain)) c0)
            = true := by
          rw [decide_eq_true_eq]
          exact (mem_foldl_filter rest c0 a).mpr ⟨ha, hm⟩
        have hr : rest.all (fun chain => decide (a ∈ chain)) = true := by
          rw [List.all_eq_true]
          intro ch hch
          exact decide_eq_true (hm ch hch)
        rw [hl, hr]
      · have hl : decide (a ∈ rest.foldl (fun acc chain => acc.filter (· ∈ chain)) c0)
            = false := by
          rw [decide_eq_false_iff_not]
          intro hc
          exact hm ((mem_foldl_filter rest c0 a).mp hc).2
        have hr : ¬ rest.all (fun chain => decide (a ∈ chain)) = true := by
          rw [List.all_eq_true]
          intro h'
          exact hm (fun ch hch => of_decide_eq_true (h' ch hch))
        rw [hl, Bool.not_eq_true] at *
        rw [hr]
    rw [hpred]
    cases c0.find? (fun a => rest.all (fun chain => decide (a ∈ chain))) <;> simp

/-! ## Relaxation-pass lemmas -/

theorem foldl_popRequired (names : List String) (attrs : List (String × CHSlot)) :
    names.foldl popRequired attrs =
      attrs.map (fun q =>
        if q.1 ∈ names then (q.1, ⟨Option.none, q.2.multivalued, q.2.rest⟩) else q) := by
  induction names generalizing attrs with
  | nil => simp
  | cons s names ih =>
    rw [List.foldl_cons, ih]
    unfold popRequired
    rw [List.map_map]
    apply List.map_congr_left
    intro q hq
    by_cases h1 : q.1 = s <;> by_cases h2 : q.1 ∈ names <;>
      simp [h1, h2, Function.comp]

theorem foldl_setMultivalued (names : List String) (attrs : List (String × CHSlot)) :
    names.foldl setMultivalued attrs =
      attrs.map (fun q =>
        if q.1 ∈ names then (q.1, ⟨q.2.required, some true, q.2.rest⟩) else q) := by
  induction names generalizing attrs with
  | nil => simp
  | cons s names ih =>
    rw [List.foldl_cons, ih]
    unfold setMultivalued
    rw [List.map_map]
    apply List.map_congr_left
    intro q hq
    by_cases h1 : q.1 = s <;> by_cases h2 : q.1 ∈ names <;>
      simp [h1, h2, Function.comp]

theorem memAll_cons (c : String) (names : List String)
    (m : List (String × List String)) (x : String) :
    memAll ((c, names) :: m) x = (if c = x then names else []) ++ memAll m x := by
  by_cases h : c = x <;> simp [memAll, h]

theorem foldl_relaxEntryRequired (m : List (String × List String))
    (classes : List (String × CHClass)) :
    m.foldl relaxEntryRequired classes =
      classes.map (fun p =>
        (p.1, ⟨p.2.attributes.map (fun q =>
          if q.1 ∈ memAll m p.1 then (q.1, ⟨Option.none, q.2.multivalued, q.2.rest⟩) else q),
          p.2.exactly_one_of, p.2.rest⟩)) := by
  induction m generalizing classes with
  | nil => simp [memAll]
  | cons e m ih =>
    obtain ⟨c, names⟩ := e
    rw [List.foldl_cons, ih]
    unfold relaxEntryRequired
    rw [List.map_map]
    apply List.map_congr_left
    rintro ⟨pn, pc⟩ hp
    by_cases h1 : pn = c
    · simp only [Function.comp]
      rw [if_pos (show (pn, pc).1 = c from h1)]
      subst h1
      simp only [memAll_cons, if_pos rfl, foldl_popRequired, List.map_map]
      simp only [Prod.mk.injEq, CHClass.mk.injEq, true_and, and_true]
      apply List.map_congr_left
      intro q hq
      by_cases h2 : q.1 ∈ names <;> by_cases h3 : q.1 ∈ memAll m pn <;>
        simp [h2, h3]
    · have h1' : ¬ c = pn := fun he => h1 he.symm
      simp [Function.comp, h1, memAll_cons, h1']

theorem foldl_relaxEntryMultivalued (m : List (String × List String))
    (classes : List (String × CHClass)) :
    m.foldl relaxEntryMultivalued classes =
      classes.map (fun p =>
        (p.1, ⟨p.2.attributes.map (fun q =>
          if q.1 ∈ memAll m p.1 then (q.1, ⟨q.2.required, some true, q.2.rest⟩) else q),
          p.2.exactly_one_of, p.2.rest⟩)) := by
  induction m generalizing classes with
  | nil => simp [memAll]
  | cons e m ih =>
    obtain ⟨c, names⟩ := e
    rw [List.foldl_cons, ih]
    unfold relaxEntryMultivalued
    rw [List.map_map]
    apply List.map_congr_left
    rintro ⟨pn, pc⟩ hp
    by_cases h1 : pn = c
    · simp only [Function.comp]
      rw [if_pos (show (pn, pc).1 = c from h1)]
      subst h1
      simp only [memAll_cons, if_pos rfl, foldl_setMultivalued, List.map_map]
      simp only [Prod.mk.injEq, CHClass.mk.injEq, true_and, and_true]
      apply List.map_congr_left
      intro q hq
      by_cases h2 : q.1 ∈ names <;> by_cases h3 : q.1 ∈ memAll m pn <;>
        simp [h2, h3]
    · have h1' : ¬ c = pn := fun he => h1 he.symm
      simp [Function.comp, h1, memAll_cons, h1']

theorem relax_classes_spec (st : CHState) :
    (relax_choice_constraints st).classes = st.classes.map (fun p =>
      (p.1, ⟨p.2.attributes.map (fun q =>
        (q.1, ⟨if q.1 ∈ memAll st.choice_slot_membership p.1 then Option.none
                 else q.2.required,
               if q.1 ∈ memAll st.choice_repeat_membership p.1 then some true
                 else q.2.multivalued,
               q.2.rest⟩)),
        p.2.exactly_one_of, p.2.rest⟩)) := by
  unfold relax_choice_constraints
  simp only [foldl_relaxEntryRequired, foldl_relaxEntryMultivalued, List.map_map]
  apply List.map_congr_left
  rintro ⟨pn, pc⟩ hp
  simp only [Function.comp, Prod.mk.injEq, CHClass.mk.injEq, true_and, and_true,
    List.map_map]
  apply List.map_congr_left
  intro q hq
  by_cases h1 : q.1 ∈ memAll st.choice_slot_membership pn <;>
    by_cases h2 : q.1 ∈ memAll st.choice_repeat_membership pn <;>
      simp [h1, h2]

theorem relax_classes_spec_fun (st : CHState) :
    (relax_choice_constraints st).classes = st.classes.map (fun p =>
      (p.1, relaxClassFun st.choice_slot_membership st.choice_repeat_membership p.1 p.2)) :=
  relax_classes_spec st

theorem relax_lookup_slot (st : CHState) (cn s : String) (cls2 : CHClass) (sd : CHSlot)
    (h1 : lookupD (relax_choice_constraints st).classes cn = some cls2)
    (h2 : lookupD cls2.attributes s = some sd) :
    ∃ cls0 sd0, lookupD st.classes cn = some cls0 ∧
      lookupD cls0.attributes s = some sd0 ∧
      sd = relaxSlotFun (memAll st.choice_slot_membership cn)
        (memAll st.choice_repeat_membership cn) s sd0 := by
  rw [relax_classes_spec_fun st, lookupD_map_keyed] at h1
  cases hc : lookupD st.classes cn with
  | none => rw [hc] at h1; simp at h1
  | some cls0 =>
    rw [hc] at h1
    simp at h1
    refine ⟨cls0, ?_⟩
    rw [← h1] at h2
    unfold relaxClassFun at h2
    rw [lookupD_map_keyed] at h2
    cases hs0 : lookupD cls0.attributes s with
    | none => rw [hs0] at h2; simp at h2
    | some sd0 =>
      rw [hs0] at h2
      simp at h2
      exact ⟨sd0, rfl, rfl, h2.symm⟩

theorem mem_setUnion (a b : List String) (x : String) :
    x ∈ setUnion a b ↔ x ∈ a ∨ x ∈ b := by
  unfold setUnion
  simp only [List.mem_append, List.mem_dedup, List.mem_filter]
  by_cases h : x ∈ a <;> simp [h]

theorem mem_memAll_memUpdate (m : List (String × List String)) (c : String)
    (names : List String) (x : String) (hx : x ∈ names) :
    x ∈ memAll (memUpdate m c names) c := by
  unfold memUpdate
  by_cases h : (lookupD m c).isSome
  · simp only [h, if_true]
    obtain ⟨v, hv⟩ := Option.isSome_iff_exists.mp h
    induction m with
    | nil => simp [lookupD] at hv
    | cons e rest ih =>
      by_cases he : e.1 = c
      · simp only [List.map_cons, he, if_pos rfl]
        rw [memAll_cons]
        simp [he, mem_setUnion, hx]
      · simp only [List.map_cons, he, if_neg he]
        have hv' : lookupD rest c = some v := by
          simp [lookupD, List.find?, he] at hv ⊢
          exact hv
        have := ih (by simp [hv']) hv'
        obtain ⟨en, ens⟩ := e
        rw [memAll_cons]
        simp only [List.mem_append]
        right
        simpa using this
  · rw [if_neg h]
    have happ : memAll (m ++ [(c, setUnion [] names)]) c =
        memAll m c ++ memAll [(c, setUnion [] names)] c := by
      simp [memAll]
    rw [happ]
    rw [memAll_cons]
    simp [mem_setUnion, hx]


/-! ## Claim theorems: C9, C1, C4, C7 -/

/-- C9: `map_xsd_primitive` returns the target primitive mapped from the
first type name along the type's base-type chain that appears in the fixed
lookup table, returns `"string"` when the type is `None`, when the chain ends
without a mapped name, or when no name can be determined, and always returns
a primitive type name. -/
theorem C9_map_xsd_primitive (a : XTypeArg) :
    map_xsd_primitive a = (firstMapped (chainNames a)).getD "string" ∧
    map_xsd_primitive a ∈ primitive_ranges := by
  have hchar : map_xsd_primitive a = (firstMapped (chainNames a)).getD "string" := by
    cases a with
    | non => simp [map_xsd_primitive, chainNames, firstMapped]
    | str s =>
      by_cases h : local_name s = ""
      · simp [map_xsd_primitive, chainNames, h, firstMapped]
      · simp only [map_xsd_primitive, chainNames, h, if_neg]
        cases hl : lookupD xsd_to_linkml_type_map (local_name s) with
        | none => simp [hl, firstMapped, List.find?]
        | some v => simp [hl, firstMapped, List.find?]
    | node t => simpa [map_xsd_primitive, chainNames] using map_xsd_node_spec t
  refine ⟨hchar, ?_⟩
  rw [hchar]
  cases hf : firstMapped (chainNames a) with
  | none => simp; decide
  | some v => simpa using firstMapped_mem hf

/-- C1: `select_keyref_range` returns none on no candidates, the sole element
on one candidate, and otherwise the first class in the first candidate's own
self-to-root ancestor chain that lies in every candidate's chain (none when
the chains share nothing); on the spec's `Base`/`DerivedA`/`DerivedB` fixture
it returns `Base`, `DerivedA` and none respectively. -/
theorem C1_select_keyref_range :
    (∀ st tc, tc = [] → select_keyref_range st tc = Option.none) ∧
    (∀ st c, select_keyref_range st [c] = some c) ∧
    (∀ st tc, 2 ≤ tc.length →
      select_keyref_range st tc = select_keyref_range_nca st tc) ∧
    select_keyref_range rsDemo ["DerivedA", "DerivedB"] = some "Base" ∧
    select_keyref_range rsDemo ["DerivedA"] = some "DerivedA" ∧
    select_keyref_range rsDemo [] = Option.none := by
  refine ⟨?_, ?_, select_keyref_range_eq_nca, by decide, by decide, by decide⟩
  · intro st tc h; subst h; simp [select_keyref_range]
  · intro st c; simp [select_keyref_range]

theorem C1_select_keyref_range_witness :
    (([] : List String) = [] ∧ select_keyref_range rsDemo [] = Option.none) ∧
    (2 ≤ (["DerivedA", "DerivedB"] : List String).length ∧
      select_keyref_range rsDemo ["DerivedA", "DerivedB"] =
        select_keyref_range_nca rsDemo ["DerivedA", "DerivedB"]) :=
  ⟨⟨rfl, C1_select_keyref_range.1 rsDemo [] rfl⟩,
   ⟨by decide, C1_select_keyref_range.2.2.1 rsDemo _ (by decide)⟩⟩

/-- C4: the relaxation pass only removes `required` on recorded choice
members and forces `multivalued` on recorded repeating-choice members; the
membership maps, every other slot field, slot/class ordering, class-level
fields, and every class or slot not recorded in the membership maps are
untouched. -/
theorem C4_relax_frame (st : CHState) :
    (relax_choice_constraints st).choice_slot_membership = st.choice_slot_membership ∧
    (relax_choice_constraints st).choice_repeat_membership = st.choice_repeat_membership ∧
    (relax_choice_constraints st).classes = st.classes.map (fun p =>
      (p.1, ⟨p.2.attributes.map (fun q =>
        (q.1, ⟨if q.1 ∈ memAll st.choice_slot_membership p.1 then Option.none
                 else q.2.required,
               if q.1 ∈ memAll st.choice_repeat_membership p.1 then some true
                 else q.2.multivalued,
               q.2.rest⟩)),
        p.2.exactly_one_of, p.2.rest⟩)) :=
  ⟨rfl, rfl, relax_classes_spec st⟩

/-- C7: the documentation text `"tier = 1\nSomeTag = foo\nThis is the
description."` merged into an empty target yields exactly the narrative
description, the tier-1 subset, and one `SomeTag = foo` annotation. -/
theorem C7_doc_metadata_roundtrip :
    apply_doc_metadata ⟨Option.none, [], []⟩
        (some "tier = 1\nSomeTag = foo\nThis is the description.") =
      ⟨some "This is the description.", ["NBO_Tier1"],
       [("SomeTag", ⟨"SomeTag", "foo"⟩)]⟩ := by decide

end NBO

namespace NBO

theorem foldl_insertNew_mem (l : List (List String)) (g : List String) (x : String) :
    x ∈ l.foldl (fun g ss => if ss.headD "" ∈ g then g else g ++ [ss.headD ""]) g ↔
      x ∈ g ∨ ∃ ss ∈ l, x = ss.headD "" := by
  induction l generalizing g with
  | nil => simp
  | cons ss l ih =>
    simp only [List.foldl_cons]
    by_cases h : ss.headD "" ∈ g
    · rw [if_pos h, ih]
      constructor
      · rintro (hx | ⟨ss', hss', rfl⟩)
        · exact Or.inl hx
        · exact Or.inr ⟨ss', List.mem_cons_of_mem _ hss', rfl⟩
      · rintro (hx | ⟨ss', hss', rfl⟩)
        · exact Or.inl hx
        · rcases List.mem_cons.mp hss' with rfl | hss'
          · exact Or.inl h
          · exact Or.inr ⟨ss', hss', rfl⟩
    · rw [if_neg h, ih]
      simp only [List.mem_append, List.mem_singleton]
      constructor
      · rintro ((hx | rfl) | ⟨ss', hss', rfl⟩)
        · exact Or.inl hx
        · exact Or.inr ⟨ss, List.mem_cons_self _ _, rfl⟩
        · exact Or.inr ⟨ss', List.mem_cons_of_mem _ hss', rfl⟩
      · rintro (hx | ⟨ss', hss', rfl⟩)
        · exact Or.inl (Or.inl hx)
        · rcases List.mem_cons.mp hss' with rfl | hss'
          · exact Or.inl (Or.inr rfl)
          · exact Or.inr ⟨ss', hss', rfl⟩

theorem foldl_insertNew_nodup (l : List (List String)) (g : List String)
    (h : g.Nodup) :
    (l.foldl (fun g ss => if ss.headD "" ∈ g then g else g ++ [ss.headD ""]) g).Nodup := by
  induction l generalizing g with
  | nil => exact h
  | cons ss l ih =>
    simp only [List.foldl_cons]
    by_cases hm : ss.headD "" ∈ g
    · rw [if_pos hm]; exact ih g h
    · rw [if_neg hm]
      refine ih _ ?_
      have hm' : ss.head?.getD "" ∉ g := by simpa [List.headD_eq_head?] using hm
      simp [List.nodup_append, h, hm']

theorem foldl_exprInsert_of_fresh (g : List String) (ex : List ChoiceExpr)
    (hfresh : ∀ s ∈ g, (⟨s, true⟩ : ChoiceExpr) ∉ ex) (hnd : g.Nodup) :
    g.foldl (fun ex slot_name =>
      if (⟨slot_name, true⟩ : ChoiceExpr) ∈ ex then ex
      else ex ++ [⟨slot_name, true⟩]) ex =
      ex ++ g.map (fun s => (⟨s, true⟩ : ChoiceExpr)) := by
  induction g generalizing ex with
  | nil => simp
  | cons s g ih =>
    simp only [List.foldl_cons]
    rw [if_neg (hfresh s (by simp))]
    have hfresh' : ∀ s' ∈ g, (⟨s', true⟩ : ChoiceExpr) ∉ ex ++ [⟨s, true⟩] := by
      intro s' hs'
      simp only [List.mem_append, List.mem_singleton]
      rintro (hin | heq)
      · exact hfresh s' (by simp [hs']) hin
      · have hss : s' = s := by
          have := congrArg ChoiceExpr.slot heq
          simpa using this
        exact (List.nodup_cons.mp hnd).1 (hss ▸ hs')
    rw [ih _ hfresh' (List.nodup_cons.mp hnd).2]
    simp

end NBO

namespace NBO

theorem apply_choice_memberships (st : CHState) (cn : String)
    (branches : List (List (String × Bool))) (rep : Bool)
    (hlen : ¬ branches.length < 2) :
    (apply_choice_constraint st cn branches rep).choice_slot_membership =
      memUpdate st.choice_slot_membership cn
        (branches.map (fun b => (b.map Prod.fst).dedup)).flatten ∧
    (apply_choice_constraint st cn branches rep).choice_repeat_membership =
      (if rep then memUpdate st.choice_repeat_membership cn
          (branches.map (fun b => (b.map Prod.fst).dedup)).flatten
       else st.choice_repeat_membership) := by
  unfold apply_choice_constraint
  rw [if_neg hlen]
  exact ⟨rfl, rfl⟩

theorem lookupD_map_setEoo (l : List (String × CHClass)) (k : String)
    (E : List ChoiceExpr) :
    lookupD (l.map (fun e =>
      if e.1 = k then (e.1, { e.2 with exactly_one_of := some E }) else e)) k =
      (lookupD l k).map (fun v => { v with exactly_one_of := some E }) :=
  lookupD_map_update l k (fun v => { v with exactly_one_of := some E })

theorem apply_choice_lookup_singleton (st : CHState) (cn : String)
    (branches : List (List (String × Bool))) (rep : Bool) (cls0 : CHClass)
    (hlen : ¬ branches.length < 2)
    (hall : (branches.map (fun b => (b.map Prod.fst).dedup)).all
      (fun slot_set => slot_set.length = 1) = true)
    (hcls : lookupD st.classes cn = some cls0) :
    lookupD (apply_choice_constraint st cn branches rep).classes cn =
      some ⟨cls0.attributes,
        some (((branches.map (fun b => (b.map Prod.fst).dedup)).foldl
          (fun g slot_set =>
            if slot_set.headD "" ∈ g then g else g ++ [slot_set.headD ""]) []).foldl
          (fun ex slot_name =>
            if (⟨slot_name, true⟩ : ChoiceExpr) ∈ ex then ex
            else ex ++ [⟨slot_name, true⟩]) (cls0.exactly_one_of.getD [])),
        cls0.rest⟩ := by
  unfold apply_choice_constraint
  rw [if_neg hlen]
  simp only [hcls, Option.isSome_some, if_true, Option.getD_some, hall, if_pos]
  rw [lookupD_map_setEoo]
  rw [hcls]
  rfl

end NBO

namespace NBO

/-- C2: for a choice whose branches each contribute exactly one distinct slot
name, the owning class records an exactly-one-of constraint with one
sub-expression per distinct branch slot, each requiring just that slot, and
after the relaxation pass none of those slots carries an independently-set
required flag. -/
theorem C2_choice_exactly_one_of (st : CHState) (cn : String)
    (branches : List (List (String × Bool))) (rep : Bool) (cls0 : CHClass)
    (hlen : 2 ≤ branches.length)
    (hsing : ∀ b ∈ branches, ((b.map Prod.fst).dedup).length = 1)
    (hcls : lookupD st.classes cn = some cls0)
    (heoo : cls0.exactly_one_of = Option.none) :
    ∃ names : List String, names.Nodup ∧
      (∀ s, s ∈ names ↔ ∃ b ∈ branches, s ∈ b.map Prod.fst) ∧
      ∃ cls1, lookupD (apply_choice_constraint st cn branches rep).classes cn = some cls1 ∧
        cls1.exactly_one_of =
          some (names.map (fun s => (⟨s, true⟩ : ChoiceExpr))) ∧
        ∀ s ∈ names, ∀ cls2 sd,
          lookupD (relax_choice_constraints
            (apply_choice_constraint st cn branches rep)).classes cn = some cls2 →
          lookupD cls2.attributes s = some sd → sd.required = Option.none := by
  have hlen' : ¬ branches.length < 2 := by omega
  set slot_sets := branches.map (fun b => (b.map Prod.fst).dedup) with hss
  set names := slot_sets.foldl
    (fun g ss => if ss.headD "" ∈ g then g else g ++ [ss.headD ""]) [] with hnames
  have hall : slot_sets.all (fun ss => ss.length = 1) = true := by
    rw [List.all_eq_true]
    intro ss hssm
    obtain ⟨b, hb, rfl⟩ := List.mem_map.mp hssm
    exact decide_eq_true (hsing b hb)
  have hnd : names.Nodup := foldl_insertNew_nodup _ _ List.nodup_nil
  have hsingle : ∀ ss ∈ slot_sets, ∃ a, ss = [a] := by
    intro ss hssm
    obtain ⟨b, hb, rfl⟩ := List.mem_map.mp hssm
    exact List.length_eq_one.mp (hsing b hb)
  have hmemch : ∀ s, s ∈ names ↔ ∃ b ∈ branches, s ∈ b.map Prod.fst := by
    intro s
    rw [hnames, foldl_insertNew_mem]
    simp only [List.not_mem_nil, false_or]
    constructor
    · rintro ⟨ss, hssm, rfl⟩
      obtain ⟨b, hb, hbss⟩ := List.mem_map.mp hssm
      obtain ⟨a, ha⟩ := hsingle ss hssm
      subst hbss
      refine ⟨b, hb, ?_⟩
      have hh : ((b.map Prod.fst).dedup).headD "" ∈ (b.map Prod.fst).dedup := by
        rw [ha]; simp
      exact List.mem_dedup.mp hh
    · rintro ⟨b, hb, hs⟩
      have hssm : (b.map Prod.fst).dedup ∈ slot_sets := by
        rw [hss]; exact List.mem_map_of_mem _ hb
      obtain ⟨a, ha⟩ := hsingle _ hssm
      have hsa : s = a := by
        have hmem : s ∈ (b.map Prod.fst).dedup := List.mem_dedup.mpr hs
        rw [ha] at hmem; simpa using hmem
      exact ⟨_, hssm, by rw [ha]; simpa using hsa⟩
  refine ⟨names, hnd, hmemch, ?_⟩
  have hlook := apply_choice_lookup_singleton st cn branches rep cls0 hlen' hall hcls
  rw [heoo] at hlook
  rw [← hss, ← hnames] at hlook
  have hexprs : names.foldl (fun ex slot_name =>
      if (⟨slot_name, true⟩ : ChoiceExpr) ∈ ex then ex
      else ex ++ [⟨slot_name, true⟩]) ((Option.none : Option (List ChoiceExpr)).getD []) =
      names.map (fun s => (⟨s, true⟩ : ChoiceExpr)) := by
    have h := foldl_exprInsert_of_fresh names [] (by simp) hnd
    simpa using h
  rw [hexprs] at hlook
  refine ⟨_, hlook, rfl, ?_⟩
  intro s hsname cls2 sd h2 h3
  obtain ⟨cls1', sd0, hc1, hs0, hsd⟩ := relax_lookup_slot _ cn s cls2 sd h2 h3
  have hmem : s ∈ memAll
      (apply_choice_constraint st cn branches rep).choice_slot_membership cn := by
    rw [(apply_choice_memberships st cn branches rep hlen').1]
    apply mem_memAll_memUpdate
    obtain ⟨b, hb, hsb⟩ := (hmemch s).mp hsname
    exact List.mem_flatten.mpr
      ⟨_, List.mem_map_of_mem _ hb, List.mem_dedup.mpr hsb⟩
  rw [hsd]
  unfold relaxSlotFun
  simp [hmem]

end NBO

namespace NBO

/-- C3: for a choice group that is itself repeatable (`max_occurs` unbounded,
or an explicit integer count greater than one) with at least two branches,
every slot touched by any branch is marked multivalued after the relaxation
pass. -/
theorem C3_repeating_choice_multivalued (st : CHState) (cn : String)
    (branches : List (List (String × Bool))) (g : GroupOcc)
    (hrep : g.max_occurs = MaxO.unbounded ∨ ∃ n, g.max_occurs = MaxO.int n ∧ 1 < n)
    (hlen : 2 ≤ branches.length)
    (s : String) (b : List (String × Bool)) (hb : b ∈ branches)
    (hs : s ∈ b.map Prod.fst) :
    choice_is_repeating g = true ∧
    ∀ cls2 sd,
      lookupD (relax_choice_constraints (apply_choice_constraint st cn branches
        (choice_is_repeating g))).classes cn = some cls2 →
      lookupD cls2.attributes s = some sd → sd.multivalued = some true := by
  have hrept : choice_is_repeating g = true := by
    rcases hrep with h | ⟨n, hn, hgt⟩
    · simp [choice_is_repeating, h]
    · simp [choice_is_repeating, hn, hgt]
  refine ⟨hrept, ?_⟩
  intro cls2 sd h2 h3
  obtain ⟨cls0, sd0, hc0, hs0, hsd⟩ := relax_lookup_slot _ cn s cls2 sd h2 h3
  have hlen' : ¬ branches.length < 2 := by omega
  have hmem : s ∈ memAll (apply_choice_constraint st cn branches
      (choice_is_repeating g)).choice_repeat_membership cn := by
    rw [(apply_choice_memberships st cn branches (choice_is_repeating g) hlen').2, hrept]
    rw [if_pos rfl]
    apply mem_memAll_memUpdate
    exact List.mem_flatten.mpr ⟨_, List.mem_map_of_mem _ hb, List.mem_dedup.mpr hs⟩
  rw [hsd]
  unfold relaxSlotFun
  simp [hmem]

/-- C10: `extract_choice_branches` yields only non-empty branches, so a call
of `apply_choice_constraint` with fewer than two non-empty branches has fewer
than two branches and leaves the target model and membership maps completely
unchanged; a slot not recorded as a choice member keeps its required flag
through the relaxation pass. -/
theorem C10_few_branches_noop (st : CHState) (cn : String)
    (branches : List (List (String × Bool))) (rep : Bool)
    (hne : ∀ b ∈ branches, b ≠ [])
    (hlt : (branches.filter (· ≠ [])).length < 2) :
    apply_choice_constraint st cn branches rep = st ∧
    (∀ children b, b ∈ extract_choice_branches children → b ≠ []) ∧
    (∀ s cls0 sd, lookupD st.classes cn = some cls0 →
      lookupD cls0.attributes s = some sd →
      s ∉ memAll st.choice_slot_membership cn →
      ∃ cls2 sd2,
        lookupD (relax_choice_constraints st).classes cn = some cls2 ∧
        lookupD cls2.attributes s = some sd2 ∧ sd2.required = sd.required) := by
  have hfeq : branches.filter (· ≠ []) = branches :=
    List.filter_eq_self.mpr (fun b hb => by simpa using hne b hb)
  have hlen : branches.length < 2 := by rw [hfeq] at hlt; exact hlt
  refine ⟨by unfold apply_choice_constraint; rw [if_pos hlen], ?_, ?_⟩
  · intro children b hbmem
    unfold extract_choice_branches at hbmem
    have := (List.mem_filter.mp hbmem).2
    simpa using this
  · intro s cls0 sd hc hs hnot
    have h1 : lookupD (relax_choice_constraints st).classes cn =
        some (relaxClassFun st.choice_slot_membership st.choice_repeat_membership cn cls0) := by
      rw [relax_classes_spec_fun, lookupD_map_keyed, hc]
      rfl
    have h2 : lookupD (relaxClassFun st.choice_slot_membership
        st.choice_repeat_membership cn cls0).attributes s =
        some (relaxSlotFun (memAll st.choice_slot_membership cn)
          (memAll st.choice_repeat_membership cn) s sd) := by
      unfold relaxClassFun
      rw [lookupD_map_keyed, hs]
      rfl
    refine ⟨_, _, h1, h2, ?_⟩
    unfold relaxSlotFun
    simp [hnot]

end NBO

namespace NBO

theorem C2_choice_exactly_one_of_witness :
    ∃ names : List String, names.Nodup ∧
      (∀ s, s ∈ names ↔ ∃ b ∈ ([[("A", true)], [("B", true)], [("C", true)]] :
        List (List (String × Bool))), s ∈ b.map Prod.fst) ∧
      ∃ cls1, lookupD (apply_choice_constraint chDemo "Sample"
          [[("A", true)], [("B", true)], [("C", true)]] false).classes "Sample" =
            some cls1 ∧
        cls1.exactly_one_of = some (names.map (fun s => (⟨s, true⟩ : ChoiceExpr))) ∧
        ∀ s ∈ names, ∀ cls2 sd,
          lookupD (relax_choice_constraints (apply_choice_constraint chDemo "Sample"
            [[("A", true)], [("B", true)], [("C", true)]] false)).classes "Sample" =
              some cls2 →
          lookupD cls2.attributes s = some sd → sd.required = Option.none :=
  C2_choice_exactly_one_of chDemo "Sample" _ false
    ⟨[("A", ⟨some true, Option.none, []⟩), ("B", ⟨some true, Option.none, []⟩),
      ("C", ⟨some true, Option.none, []⟩), ("X", ⟨some true, Option.none, []⟩),
      ("Y", ⟨Option.none, Option.none, []⟩)], Option.none, []⟩
    (by decide) (by decide) (by decide) rfl

theorem C3_repeating_choice_multivalued_witness :
    choice_is_repeating ⟨MaxO.int 2, Option.none⟩ = true ∧
    ∀ cls2 sd,
      lookupD (relax_choice_constraints (apply_choice_constraint chDemo "Sample"
        [[("X", true)], [("Y", false)]]
        (choice_is_repeating ⟨MaxO.int 2, Option.none⟩))).classes "Sample" = some cls2 →
      lookupD cls2.attributes "X" = some sd → sd.multivalued = some true :=
  C3_repeating_choice_multivalued chDemo "Sample" [[("X", true)], [("Y", false)]]
    ⟨MaxO.int 2, Option.none⟩ (Or.inr ⟨2, rfl, by omega⟩) (by decide)
    "X" [("X", true)] (by decide) (by decide)

theorem C10_few_branches_noop_witness :
    apply_choice_constraint chDemo "Sample" [[("X", true)]] false = chDemo ∧
    (∀ children b, b ∈ extract_choice_branches children → b ≠ []) ∧
    (∀ s cls0 sd, lookupD chDemo.classes "Sample" = some cls0 →
      lookupD cls0.attributes s = some sd →
      s ∉ memAll chDemo.choice_slot_membership "Sample" →
      ∃ cls2 sd2,
        lookupD (relax_choice_constraints chDemo).classes "Sample" = some cls2 ∧
        lookupD cls2.attributes s = some sd2 ∧ sd2.required = sd.required) :=
  C10_few_branches_noop chDemo "Sample" [[("X", true)]] false (by decide) (by decide)

end NBO

namespace NBO

/-- C5 (counterexample): an `id` attribute on the reference-like class
`ImageRef` with resolved target `Image` but an enumeration facet on its type
gets the synthesized enum name as range, not the resolved target class —
refuting the claim as stated. -/
theorem C5_counterexample :
    class_is_ref_like rsImageRef "ImageRef" = true ∧
    reference_target_for_class rsImageRef "ImageRef"
      (attrTypeNameLocal ⟨some (XsdType.mk Option.none ["val"] Option.none Option.none
        Option.none), Option.none, Option.none, []⟩) = some "Image" ∧
    (slot_from_attribute rsImageRef [] "ImageRef" "id"
      ⟨some (XsdType.mk Option.none ["val"] Option.none Option.none Option.none),
        Option.none, Option.none, []⟩).range = "Enum_ImageRef_id" ∧
    ¬ (slot_from_attribute rsImageRef [] "ImageRef" "id"
      ⟨some (XsdType.mk Option.none ["val"] Option.none Option.none Option.none),
        Option.none, Option.none, []⟩).range = "Image" := by decide

/-- C5 (amended): for an attribute literally named `id` on a reference-like
owner class, when `reference_target_for_class` resolves a truthy (non-empty)
target class name and the attribute's type carries no enumeration values, the
returned slot's range is that target class; the `if target_candidate:` guard
keeps the primitive range on a falsy result, and an enumeration facet would
overwrite the range afterwards. -/
theorem C5_id_ref_range (st : RState)
    (overrides : List (String × List (String × String)))
    (owner_class : String) (attr : AttrObj) (tgt : String)
    (href : class_is_ref_like st owner_class = true)
    (htgt : reference_target_for_class st owner_class (attrTypeNameLocal attr) = some tgt)
    (htne : tgt ≠ "")
    (henum : (attr.typeAttr.map XsdType.enumerationAttr).getD [] = []) :
    (slot_from_attribute st overrides owner_class "id" attr).range = tgt := by
  unfold slot_from_attribute
  have hlow : pyToLower "id" = "id" := by decide
  simp only [hlow, href, htgt, henum, truthyStr]
  simp [htne]

end NBO

namespace NBO

theorem C5_id_ref_range_witness :
    class_is_ref_like rsImageRef "ImageRef" = true ∧
    reference_target_for_class rsImageRef "ImageRef"
      (attrTypeNameLocal ⟨Option.none, Option.none, Option.none, []⟩) = some "Image" ∧
    (slot_from_attribute rsImageRef [] "ImageRef" "id"
      ⟨Option.none, Option.none, Option.none, []⟩).range = "Image" :=
  ⟨by decide, by decide,
   C5_id_ref_range rsImageRef [] "ImageRef" ⟨Option.none, Option.none, Option.none, []⟩
     "Image" (by decide) (by decide) (by decide) rfl⟩

theorem processIdent_keyref_skip (st : RState) (km : List (String × List String))
    (nm : String) (r : Refer) (sel : Option String) (fields : List String)
    (hcond : select_keyref_range st ((lookupD km (match truthyStr r.name with
        | some n => local_name n
        | Option.none => local_name r.repr)).getD []) = Option.none ∨
      ∀ f ∈ fields, f = "") :
    processIdent st km nm (.keyrefI (some r) sel fields) = (km, []) := by
  unfold processIdent
  simp only []
  cases hseg : selectorSegments (sel.getD "") with
  | nil => simp [hseg]
  | cons seg0 rest =>
    rw [if_neg (by simp [hseg])]
    by_cases hstar : (seg0 :: rest).getLastD "" = "*" ∨ (seg0 :: rest).getLastD "" = "."
    · rw [if_pos hstar]
    · rw [if_neg hstar]
      refine Prod.ext rfl ?_
      simp only []
      rw [List.filterMap_eq_nil_iff]
      intro f hf
      by_cases hfe : f = ""
      · simp [hfe]
      · rcases hcond with hnone | hall
        · simp only [if_neg hfe, hnone]
          by_cases hsn : local_name (if pyStartsWith ((pySplit f '/').getLastD "") "@"
              then pyDrop ((pySplit f '/').getLastD "") 1
              else (pySplit f '/').getLastD "") = ""
          · simp [hsn]
          · simp [hsn]
        · exact absurd (hall f hf) hfe

end NBO

namespace NBO

theorem piStep_keyref_skip (st : RState)
    (acc : List (String × List String) × List Effect)
    (nm : String) (r : Refer) (sel : Option String) (fields : List String)
    (hcond : select_keyref_range st ((lookupD acc.1 (match truthyStr r.name with
        | some n => local_name n
        | Option.none => local_name r.repr)).getD []) = Option.none ∨
      ∀ f ∈ fields, f = "") :
    piStep st acc (nm, Ident.keyrefI (some r) sel fields) = acc := by
  unfold piStep
  rw [processIdent_keyref_skip st acc.1 nm r sel fields hcond]
  simp

/-- C6: a keyref whose referred key resolves to no range (no target classes,
or no common ancestor) or which has no non-empty field paths adds no slot and
leaves the key-target map unchanged, so processing the remaining identity
constraints is identical; the embedding is a total function, so no execution
path raises. -/
theorem C6_keyref_skip (st : RState) (pre post : List (String × Ident))
    (nm : String) (r : Refer) (sel : Option String) (fields : List String)
    (hcond : select_keyref_range st ((lookupD (kmAfter st pre)
        (match truthyStr r.name with
         | some n => local_name n
         | Option.none => local_name r.repr)).getD []) = Option.none ∨
      ∀ f ∈ fields, f = "") :
    process_identities st (pre ++ (nm, Ident.keyrefI (some r) sel fields) :: post) =
      process_identities st (pre ++ post) := by
  unfold process_identities
  rw [List.foldl_append, List.foldl_cons, List.foldl_append,
    piStep_keyref_skip st (pre.foldl (piStep st) ([], [])) nm r sel fields hcond]

theorem C6_keyref_skip_witness :
    select_keyref_range rsDemo ((lookupD (kmAfter rsDemo [])
        (match truthyStr (Refer.mk (some "NoKey") "refobj").name with
         | some n => local_name n
         | Option.none => local_name (Refer.mk (some "NoKey") "refobj").repr)).getD []) =
      Option.none ∧
    process_identities rsDemo
        [("kr", Ident.keyrefI (some ⟨some "NoKey", "refobj"⟩) (some "ome/Thing")
          ["@TheID"])] =
      process_identities rsDemo [] :=
  ⟨by decide,
   C6_keyref_skip rsDemo [] [] "kr" ⟨some "NoKey", "refobj"⟩ (some "ome/Thing") ["@TheID"]
     (Or.inl (by decide))⟩

end NBO

namespace NBO

/-- C8 (counterexample): merging metadata key `a` with two values into a
target already holding an annotation named `a_1` overwrites that entry in
place — refuting the claim that no annotation already present is ever
overwritten. -/
theorem C8_overwrite_counterexample :
    lookupD ([("a_1", ⟨"old", "old"⟩)] : List (String × Annotation)) "a_1" =
      some ⟨"old", "old"⟩ ∧
    (apply_metadata_to_target ⟨Option.none, [], [("a_1", ⟨"old", "old"⟩)]⟩
        [("a", ["p", "q"])]).annotations =
      [("a_1", ⟨"a", "q"⟩), ("a", ⟨"a", "p"⟩)] := by decide

theorem recordAnnotations_single_fresh (anns : List (String × Annotation)) (k v : String)
    (hb : (lookupD anns (pyReplace k " " "_")).isNone = true) :
    recordAnnotations anns [(k, [v])] = anns ++ [(pyReplace k " " "_", ⟨k, v⟩)] := by
  have hnone : lookupD anns (pyReplace k " " "_") = Option.none :=
    Option.isNone_iff_eq_none.mp hb
  unfold recordAnnotations
  simp [List.enum, List.enumFrom, dictInsert, hnone, hb]

/-- C8 (amended): a first occurrence of a metadata key is stored under the
key itself (spaces replaced with underscores) when that name is fresh, and
subsequent occurrences under index-suffixed names with no freshness check;
when every key occurs once and its underscored base is fresh, nothing is
overwritten, and an appinfo entry with a fresh name is appended without
overwriting. -/
theorem C8_fresh_annotation_keys (anns : List (String × Annotation))
    (md : List (String × List String))
    (h1 : ∀ e ∈ md, e.2.length = 1)
    (h2 : (md.map (fun e => pyReplace e.1 " " "_")).Nodup)
    (h3 : ∀ e ∈ md, (lookupD anns (pyReplace e.1 " " "_")).isNone = true) :
    recordAnnotations anns md =
      anns ++ md.map (fun e => (pyReplace e.1 " " "_", ⟨e.1, e.2.headD ""⟩)) ∧
    (∀ t node, (lookupD t.annotations (local_name node.tagOf)).isNone = true →
      (record_appinfo_entry t node).annotations =
        t.annotations ++ [(local_name node.tagOf,
          ⟨local_name node.tagOf,
           if pyTrim (optStr node.textOf) = "" then "true"
           else pyTrim (optStr node.textOf)⟩)]) := by
  constructor
  · induction md generalizing anns with
    | nil => simp [recordAnnotations]
    | cons e rest ih =>
      obtain ⟨k, vs⟩ := e
      obtain ⟨v, rfl⟩ : ∃ v, vs = [v] := by
        have hl := h1 (k, vs) (by simp)
        obtain ⟨a, ha⟩ := List.length_eq_one.mp hl
        exact ⟨a, ha⟩
      have hb := h3 (k, [v]) (by simp)
      have hcons : recordAnnotations anns ((k, [v]) :: rest) =
          recordAnnotations (recordAnnotations anns [(k, [v])]) rest := rfl
      rw [hcons, recordAnnotations_single_fresh anns k v hb]
      have hnd := h2
      simp only [List.map_cons, List.nodup_cons] at hnd
      have h3' : ∀ e ∈ rest, (lookupD (anns ++
          [(pyReplace k " " "_", (⟨k, v⟩ : Annotation))])
          (pyReplace e.1 " " "_")).isNone = true := by
        intro e he
        rw [lookupD_append]
        have hn : lookupD anns (pyReplace e.1 " " "_") = Option.none :=
          Option.isNone_iff_eq_none.mp (h3 e (by simp [he]))
        rw [hn]
        have hne : ¬ (pyReplace k " " "_") = (pyReplace e.1 " " "_") := by
          intro hkk
          exact hnd.1 (hkk ▸ List.mem_map_of_mem _ he)
        simp [lookupD, List.find?, hne]
      rw [ih (anns ++ [(pyReplace k " " "_", Annotation.mk k v)])
        (fun e he => h1 e (by simp [he])) hnd.2 h3']
      simp
  · intro t node h
    have hnone : lookupD t.annotations (local_name node.tagOf) = Option.none :=
      Option.isNone_iff_eq_none.mp h
    unfold record_appinfo_entry
    simp [dictInsert, hnone, h]

theorem C8_fresh_annotation_keys_witness :
    recordAnnotations [] [("My Tag", ["x"])] =
      [] ++ [("My Tag", ["x"])].map (fun e =>
        ((pyReplace e.1 " " "_" : String), (⟨e.1, e.2.headD ""⟩ : Annotation))) ∧
    (∀ t node, (lookupD t.annotations (local_name node.tagOf)).isNone = true →
      (record_appinfo_entry t node).annotations =
        t.annotations ++ [(local_name node.tagOf,
          ⟨local_name node.tagOf,
           if pyTrim (optStr node.textOf) = "" then "true"
           else pyTrim (optStr node.textOf)⟩)]) :=
  C8_fresh_annotation_keys [] [("My Tag", ["x"])] (by decide) (by decide) (by decide)

end NBO
